import Mathlib

/-!
Verification of the mapping filter in `src/conf.py` of thy-python.

The file's single computation (line 23) is

  intersphinx_mapping =
      {k: v for k, v in intersphinx_mapping.items() if k in intersphinx_mapping_enabled}

together with the allow-list tuple `intersphinx_mapping_enabled` declared on
lines 14-22.  A Python dict is modelled as an insertion-ordered association
list with unique keys; the tuple is modelled as a list of strings; the
comprehension is modelled by structural recursion over the items, preserving
order.  Reference-target values are kept polymorphic (`V`), since the source
treats them as opaque data.
-/

/-- Python's membership test `k in A` on a tuple of identifiers:
a left-to-right scan comparing each element with `k` for equality
(src/conf.py line 23, the `if k in intersphinx_mapping_enabled` guard). -/
def tupleContains (A : List String) (k : String) : Bool :=
  match A with
  | [] => false
  | a :: rest => if k = a then true else tupleContains rest k

/-- Python dict subscription / item retrieval: return the value stored at the
first (hence, with unique keys, the only) entry whose key equals `k`. -/
def lookupKey {K V : Type} [DecidableEq K] (M : List (K × V)) (k : K) : Option V :=
  match M with
  | [] => none
  | (k1, v) :: rest => if k = k1 then some v else lookupKey rest k

/-- Shallow embedding of the dict comprehension on line 23 of src/conf.py:
iterate the items of the source mapping in order and keep exactly those whose
key passes the tuple-membership guard, with the value untouched. -/
def filterMapping {V : Type} (M : List (String × V)) (A : List String) :
    List (String × V) :=
  match M with
  | [] => []
  | (k, v) :: rest =>
    if tupleContains A k then (k, v) :: filterMapping rest A
    else filterMapping rest A

/-- The same comprehension evaluated with an explicit error channel: each
iteration performs only a tuple-membership test and a conditional insertion,
neither of which can raise, so no branch constructs an error. -/
def filterMappingE {V : Type} (M : List (String × V)) (A : List String) :
    Except String (List (String × V)) :=
  match M with
  | [] => Except.ok []
  | (k, v) :: rest =>
    match filterMappingE rest A with
    | Except.error e => Except.error e
    | Except.ok F => Except.ok (if tupleContains A k then (k, v) :: F else F)

/-- The allow-list tuple `intersphinx_mapping_enabled` declared on lines 14-22
of src/conf.py.  All six identifiers, including the first one, are live
elements of the tuple: none of the lines is commented out. -/
def intersphinx_mapping_enabled : List String :=
  ["thy_main", "py3", "pydevguide", "python_guide_org", "rtfd", "sphinx"]

/-- A fragment of the Python runtime state at line 23: a heap of dict objects
addressed by natural numbers, and an environment binding variable names to
addresses.  This is enough to express that the assignment rebinds the name
to a freshly allocated dict and mutates no existing object. -/
structure PyState (V : Type) where
  heap : List (Nat × List (String × V))
  env : List (String × Nat)

/-- Largest address in use on the heap (0 for the empty heap). -/
def maxAddr {V : Type} (h : List (Nat × List (String × V))) : Nat :=
  match h with
  | [] => 0
  | (a, _) :: rest => max a (maxAddr rest)

/-- Shallow embedding of the full assignment statement on line 23 of
src/conf.py: read the dict currently bound to `intersphinx_mapping`, build
the filtered dict as a new object at a fresh address, and rebind the name to
it.  If the name or its address is unbound the state is returned unchanged
(Python would raise NameError there; the repository's conf_global import
guarantees the binding exists). -/
def execFilterAssign {V : Type} (s : PyState V) (enabled : List String) :
    PyState V :=
  match lookupKey s.env "intersphinx_mapping" with
  | none => s
  | some a =>
    match lookupKey s.heap a with
    | none => s
    | some d =>
      { heap := (maxAddr s.heap + 1, filterMapping d enabled) :: s.heap
        env := ("intersphinx_mapping", maxAddr s.heap + 1) :: s.env }

/-- The tuple-membership scan decides list membership. -/
theorem tupleContains_iff_mem (A : List String) (k : String) :
    tupleContains A k = true ↔ k ∈ A := by
  induction A with
  | nil => simp [tupleContains]
  | cons a rest ih =>
    by_cases h : k = a
    · simp [tupleContains, h]
    · simp [tupleContains, h, ih]

/-- Unfolding the comprehension at an item that passes the guard. -/
theorem filterMapping_cons_pos {V : Type} (k : String) (v : V)
    (rest : List (String × V)) (A : List String)
    (hb : tupleContains A k = true) :
    filterMapping ((k, v) :: rest) A = (k, v) :: filterMapping rest A := by
  simp [filterMapping, hb]

/-- Unfolding the comprehension at an item that fails the guard. -/
theorem filterMapping_cons_neg {V : Type} (k : String) (v : V)
    (rest : List (String × V)) (A : List String)
    (hb : tupleContains A k = false) :
    filterMapping ((k, v) :: rest) A = filterMapping rest A := by
  simp [filterMapping, hb]

/-- Key membership in the filtered mapping, characterised. -/
theorem mem_keys_filterMapping {V : Type} (M : List (String × V))
    (A : List String) (k : String) :
    k ∈ (filterMapping M A).map Prod.fst ↔
      k ∈ M.map Prod.fst ∧ tupleContains A k = true := by
  induction M with
  | nil => simp [filterMapping]
  | cons p rest ih =>
    obtain ⟨k1, v⟩ := p
    cases hb : tupleContains A k1 with
    | true =>
      rw [filterMapping_cons_pos k1 v rest A hb]
      simp only [List.map_cons, List.mem_cons]
      rw [ih]
      constructor
      · rintro (hm | ⟨hm, hc⟩)
        · exact ⟨Or.inl hm, hm ▸ hb⟩
        · exact ⟨Or.inr hm, hc⟩
      · rintro ⟨hm | hm, hc⟩
        · exact Or.inl hm
        · exact Or.inr ⟨hm, hc⟩
    | false =>
      rw [filterMapping_cons_neg k1 v rest A hb]
      simp only [List.map_cons, List.mem_cons]
      rw [ih]
      constructor
      · rintro ⟨hm, hc⟩
        exact ⟨Or.inr hm, hc⟩
      · rintro ⟨hm | hm, hc⟩
        · rw [hm] at hc
          rw [hc] at hb
          exact Bool.noConfusion hb
        · exact ⟨hm, hc⟩

/-- C1: soundness of the mapping filter — every key of the filtered result is
both a key of the source mapping and a member of the allow-list. -/
theorem filterMapping_sound {V : Type} (M : List (String × V)) (A : List String)
    (k : String) (h : k ∈ (filterMapping M A).map Prod.fst) :
    k ∈ M.map Prod.fst ∧ k ∈ A := by
  rcases (mem_keys_filterMapping M A k).mp h with ⟨hm, hc⟩
  exact ⟨hm, (tupleContains_iff_mem A k).mp hc⟩

/-- C1 witness: the soundness theorem applied to a concrete mapping and
allow-list. -/
theorem filterMapping_sound_witness :
    "a" ∈ (filterMapping [("a", 1), ("b", 2)] ["a"]).map Prod.fst ∧
      ("a" ∈ ([("a", 1), ("b", 2)] : List (String × Nat)).map Prod.fst ∧
        "a" ∈ (["a"] : List String)) :=
  ⟨by decide, filterMapping_sound [("a", 1), ("b", 2)] ["a"] "a" (by decide)⟩

/-- C2: completeness of the mapping filter — any key of the source mapping
that is also a member of the allow-list appears in the filtered result bound
to its original value, unchanged. -/
theorem filterMapping_complete {V : Type} (M : List (String × V))
    (A : List String) (k : String) (v : V)
    (hv : lookupKey M k = some v) (ha : k ∈ A) :
    lookupKey (filterMapping M A) k = some v := by
  induction M with
  | nil => simp [lookupKey] at hv
  | cons p rest ih =>
    obtain ⟨k1, v1⟩ := p
    by_cases hk : k = k1
    · have hc : tupleContains A k1 = true :=
        (tupleContains_iff_mem A k1).mpr (hk ▸ ha)
      rw [filterMapping_cons_pos k1 v1 rest A hc]
      simp only [lookupKey, hk, if_pos]
      simpa [lookupKey, hk] using hv
    · have hv1 : lookupKey rest k = some v := by
        simpa [lookupKey, hk] using hv
      cases hc : tupleContains A k1 with
      | true =>
        rw [filterMapping_cons_pos k1 v1 rest A hc]
        simpa [lookupKey, hk] using ih hv1
      | false =>
        rw [filterMapping_cons_neg k1 v1 rest A hc]
        exact ih hv1

/-- C2 witness: the completeness theorem applied to a concrete mapping and
allow-list. -/
theorem filterMapping_complete_witness :
    (lookupKey [("a", 1), ("b", 2)] "a" = some 1 ∧
      "a" ∈ (["a", "z"] : List String)) ∧
    lookupKey (filterMapping [("a", 1), ("b", 2)] ["a", "z"]) "a" = some 1 :=
  ⟨⟨by decide, by decide⟩,
    filterMapping_complete [("a", 1), ("b", 2)] ["a", "z"] "a" 1
      (by decide) (by decide)⟩

/-- C3 counterexample: the claim that `thy_main` is not an active member of
the declared allow-list is false — it is an element of
`intersphinx_mapping_enabled` (line 15 of src/conf.py is not commented out). -/
theorem thy_main_inactive_refuted :
    ¬ ("thy_main" ∉ intersphinx_mapping_enabled) := by decide

/-- C3 (amended): `thy_main` is an active entry of the declared allow-list,
accepted by the membership test the filter uses. -/
theorem thy_main_active :
    tupleContains intersphinx_mapping_enabled "thy_main" = true := by decide

/-- C4: the filter has no failure modes — evaluating the comprehension with an
explicit error channel returns the filtered mapping normally for every source
mapping and allow-list (allow-list entries absent from the source contribute
nothing and raise nothing). -/
theorem filterMappingE_ok {V : Type} (M : List (String × V)) (A : List String) :
    filterMappingE M A = Except.ok (filterMapping M A) := by
  induction M with
  | nil => rfl
  | cons p rest ih =>
    obtain ⟨k, v⟩ := p
    cases hb : tupleContains A k with
    | true =>
      rw [filterMapping_cons_pos k v rest A hb]
      simp [filterMappingE, ih, hb]
    | false =>
      rw [filterMapping_cons_neg k v rest A hb]
      simp [filterMappingE, ih, hb]

/-- C5: idempotence — filtering the filtered result again with the same
allow-list returns it unchanged. -/
theorem filterMapping_idempotent {V : Type} (M : List (String × V))
    (A : List String) :
    filterMapping (filterMapping M A) A = filterMapping M A := by
  induction M with
  | nil => rfl
  | cons p rest ih =>
    obtain ⟨k, v⟩ := p
    cases hb : tupleContains A k with
    | true =>
      rw [filterMapping_cons_pos k v rest A hb,
        filterMapping_cons_pos k v (filterMapping rest A) A hb, ih]
    | false =>
      rw [filterMapping_cons_neg k v rest A hb, ih]

/-- C6: empty-input laws — filtering the empty mapping gives the empty
mapping, and filtering any mapping with the empty allow-list gives the empty
mapping. -/
theorem filterMapping_empty_laws {V : Type} (M : List (String × V))
    (A : List String) :
    filterMapping ([] : List (String × V)) A = [] ∧ filterMapping M [] = [] := by
  refine ⟨rfl, ?_⟩
  induction M with
  | nil => rfl
  | cons p rest ih =>
    obtain ⟨k, v⟩ := p
    rw [filterMapping_cons_neg k v rest [] rfl, ih]

/-- C7: order-independence — allow-lists that are permutations of one another
produce identical filtered mappings (here even the same association list,
since the result order comes from the source mapping). -/
theorem filterMapping_perm_invariant {V : Type} (M : List (String × V))
    (A B : List String) (hp : A.Perm B) :
    filterMapping M A = filterMapping M B := by
  have hc : ∀ k, tupleContains A k = tupleContains B k := by
    intro k
    cases hA : tupleContains A k with
    | true =>
      have : k ∈ B := hp.subset ((tupleContains_iff_mem A k).mp hA)
      exact ((tupleContains_iff_mem B k).mpr this).symm
    | false =>
      cases hB : tupleContains B k with
      | true =>
        have : k ∈ A := hp.symm.subset ((tupleContains_iff_mem B k).mp hB)
        rw [(tupleContains_iff_mem A k).mpr this] at hA
        exact Bool.noConfusion hA
      | false => rfl
  induction M with
  | nil => rfl
  | cons p rest ih =>
    obtain ⟨k, v⟩ := p
    cases hb : tupleContains A k with
    | true =>
      rw [filterMapping_cons_pos k v rest A hb,
        filterMapping_cons_pos k v rest B ((hc k).symm.trans hb), ih]
    | false =>
      rw [filterMapping_cons_neg k v rest A hb,
        filterMapping_cons_neg k v rest B ((hc k).symm.trans hb), ih]

/-- C7 witness: the permutation-invariance theorem applied to a concrete
mapping and a concrete pair of permuted allow-lists. -/
theorem filterMapping_perm_invariant_witness :
    (["a", "b"] : List String).Perm ["b", "a"] ∧
    filterMapping [("a", 1)] ["a", "b"] = filterMapping [("a", 1)] ["b", "a"] :=
  ⟨List.Perm.swap "b" "a" [],
    filterMapping_perm_invariant [("a", 1)] ["a", "b"] ["b", "a"]
      (List.Perm.swap "b" "a" [])⟩

/-- Any address bound on the heap is at most the largest address in use. -/
theorem lookupKey_le_maxAddr {V : Type} (h : List (Nat × List (String × V)))
    (b : Nat) (d : List (String × V)) (hb : lookupKey h b = some d) :
    b ≤ maxAddr h := by
  induction h with
  | nil => simp [lookupKey] at hb
  | cons p rest ih =>
    obtain ⟨a, d1⟩ := p
    by_cases hba : b = a
    · subst hba
      exact le_max_of_le_left le_rfl
    · have hrest : lookupKey rest b = some d := by
        simpa [lookupKey, hba] using hb
      exact le_max_of_le_right (ih hrest)

/-- C8: the assignment is a pure computation producing a new mapping object —
executing line 23 leaves every dict object already on the heap (in particular
the source mapping) exactly as it was; the filtered dict lives at a fresh
address. -/
theorem execFilterAssign_frame {V : Type} (s : PyState V) (E : List String)
    (b : Nat) (d : List (String × V)) (hb : lookupKey s.heap b = some d) :
    lookupKey (execFilterAssign s E).heap b = some d := by
  cases he : lookupKey s.env "intersphinx_mapping" with
  | none => simp [execFilterAssign, he, hb]
  | some a =>
    cases hd : lookupKey s.heap a with
    | none => simp [execFilterAssign, he, hd, hb]
    | some d0 =>
      have hle : b ≤ maxAddr s.heap := lookupKey_le_maxAddr s.heap b d hb
      have hne : b ≠ maxAddr s.heap + 1 := by omega
      simp [execFilterAssign, he, hd, lookupKey, hne, hb]

/-- C8 witness: the frame theorem applied to a concrete initial state; the
source dict at address 0 is unchanged by executing the assignment. -/
theorem execFilterAssign_frame_witness :
    lookupKey (PyState.mk [(0, [("a", 1)])]
        [("intersphinx_mapping", 0)] : PyState Nat).heap 0 = some [("a", 1)] ∧
    lookupKey (execFilterAssign
        (PyState.mk [(0, [("a", 1)])] [("intersphinx_mapping", 0)])
        ["a"]).heap 0 = some [("a", 1)] :=
  ⟨rfl, execFilterAssign_frame
    (PyState.mk [(0, [("a", 1)])] [("intersphinx_mapping", 0)]) ["a"]
    0 [("a", 1)] rfl⟩

/-- C9: the worked example — filtering the mapping a:1, b:2, c:3 with the
allow-list [a, c, z] yields exactly a:1, c:3 (z is absent from the source and
silently ignored, b is not allow-listed and excluded). -/
theorem filterMapping_worked_example :
    filterMapping [("a", 1), ("b", 2), ("c", 3)] ["a", "c", "z"]
      = [("a", 1), ("c", 3)] := by decide

/-- C10: the repository's allow-list is exactly the six identifiers
thy_main, py3, pydevguide, python_guide_org, rtfd, sphinx, and for every
source mapping the key set of the filtered result is the intersection of the
source's key set with that six-element set. -/
theorem filtered_keys_eq_inter_allowlist {V : Type} (M : List (String × V))
    (k : String) :
    intersphinx_mapping_enabled
        = ["thy_main", "py3", "pydevguide", "python_guide_org", "rtfd",
            "sphinx"] ∧
    (k ∈ (filterMapping M intersphinx_mapping_enabled).map Prod.fst ↔
      k ∈ M.map Prod.fst ∧
        k ∈ (["thy_main", "py3", "pydevguide", "python_guide_org", "rtfd",
            "sphinx"] : List String)) := by
  refine ⟨rfl, ?_⟩
  rw [mem_keys_filterMapping, tupleContains_iff_mem]
  simp only [intersphinx_mapping_enabled]
